import Mathlib

/-!
# gy85-raspberrypi: the signal-conditioning pipeline of `demo.c`

A shallow embedding of `src/demo.c`: the per-axis record `struct Coordinate`, the
smoothing filter `lerp`, `initCoordinate`, `updateCoordinate`, and the sampling loop
of `main` as a small-step machine with the signal handler `ctrlCHandler`.

## Number model

* `short data` is an `Int` (no arithmetic is done on it before the conversion to `float`,
  so no wrap-around can occur; the conversion of a `short` to `float` is exact).
* A finite `float` is the rational number it denotes. Every C operation on floats is the
  exact operation followed by `round32`, the IEEE 754 binary32 rounding (to nearest, ties
  to even, 24-bit significand, subnormals down to `2^-149`): one rounding per operation,
  as the C expression is written (no fused multiply-add, no wider intermediate format).
* The stored fields `smoothed`, `min`, `max` are finite: line 69 cannot overflow on a
  finite record and a `short` sample (`lerp_in_range`), and `MIN`/`MAX` only select.
* Line 72 can leave the finite numbers (zero divisor, overflow of `max - min`); it is
  computed in `F32`, which has the infinities and NaN. Its value only flows into the field
  `normalized`, which the program writes and prints but never reads back into a
  computation, so `normalized` is an `Option ℚ`: `none` is a result that is not a finite
  number.
* The sign of zero is not modelled; it cannot change a value here (the only zero divisor
  is `x - x`, which is `+0`).
-/

namespace Gy85

/-! ## Constants -/

/-- Line 14: `#define DELAY 30000` (microseconds passed to `usleep`). -/
def DELAY : Nat := 30000

/-! ## Binary32 arithmetic -/

/-- Counts how often the bound `p` must be doubled to exceed `a`, at most `fuel` times. -/
def expoSteps (a : ℚ) : Nat → ℚ → Nat
  | 0, _ => 0
  | f + 1, p => if a < p then 0 else expoSteps a f (2 * p) + 1

/-- The binary exponent used to round `x`: the `e` with `2^e ≤ |x| < 2^(e+1)`, not below
`-126` (the subnormal range shares the exponent of the smallest normal numbers) and not
above `128` (values that large are beyond the float range anyway). -/
def expo (x : ℚ) : Int := -126 + (expoSteps |x| 254 ((2 : ℚ) ^ (-125 : ℤ)) : Int)

/-- The spacing of the binary32 numbers around `x`: 24 significant bits. -/
def ulp (x : ℚ) : ℚ := (2 : ℚ) ^ (expo x - 23)

/-- The integer nearest to `y`, the even one when `y` is halfway between two. -/
def rne (y : ℚ) : Int :=
  if y - ⌊y⌋ < 1 / 2 then ⌊y⌋
  else if 1 / 2 < y - ⌊y⌋ then ⌊y⌋ + 1
  else if ⌊y⌋ % 2 = 0 then ⌊y⌋ else ⌊y⌋ + 1

/-- The binary32 rounding of the exact value `x` (to nearest, ties to even), before the
range check. -/
def round32 (x : ℚ) : ℚ := (rne (x / ulp x) : ℚ) * ulp x

/-- The largest finite binary32 number, `(2^24 - 1) * 2^104`. -/
def FLT_MAX : ℚ := (2 ^ 24 - 1) * 2 ^ 104

/-- The value `x` is a finite binary32 number: rounding keeps it and it is within range. -/
def IsF32 (x : ℚ) : Prop := round32 x = x ∧ |x| ≤ FLT_MAX

instance (x : ℚ) : Decidable (IsF32 x) := by
  unfold IsF32; infer_instance

/-- A binary32 value as an expression can produce it: a finite number, an infinity with
its sign, or NaN. -/
inductive F32 where
  | fin (q : ℚ)
  | inf (neg : Bool)
  | nan
deriving DecidableEq

/-- The float result of an operation whose exact value is `x`: the rounded value, or the
infinity of the sign of `x` when the rounded value exceeds `FLT_MAX`. -/
def F32.ofRat (x : ℚ) : F32 :=
  if |round32 x| ≤ FLT_MAX then F32.fin (round32 x) else F32.inf (decide (x < 0))

/-- The C operator `-` on floats. -/
def F32.sub : F32 → F32 → F32
  | F32.fin a, F32.fin b => F32.ofRat (a - b)
  | F32.fin _, F32.inf n => F32.inf (!n)
  | F32.inf n, F32.fin _ => F32.inf n
  | F32.inf n, F32.inf m => if n = m then F32.nan else F32.inf n
  | _, _ => F32.nan

/-- The C operator `*` on floats. -/
def F32.mul : F32 → F32 → F32
  | F32.fin a, F32.fin b => F32.ofRat (a * b)
  | F32.fin a, F32.inf n => if a = 0 then F32.nan else F32.inf (n != decide (a < 0))
  | F32.inf n, F32.fin b => if b = 0 then F32.nan else F32.inf (n != decide (b < 0))
  | F32.inf n, F32.inf m => F32.inf (n != m)
  | _, _ => F32.nan

/-- The C operator `/` on floats. The program has no test on the divisor: `0 / 0` is NaN
and a non-zero number over zero is an infinity. -/
def F32.div : F32 → F32 → F32
  | F32.fin a, F32.fin b =>
      if b = 0 then (if a = 0 then F32.nan else F32.inf (decide (a < 0)))
      else F32.ofRat (a / b)
  | F32.fin _, F32.inf _ => F32.fin 0
  | F32.inf n, F32.fin b => F32.inf (n != decide (b < 0))
  | _, _ => F32.nan

/-- The finite number held by a float, if it holds one. -/
def F32.toOption : F32 → Option ℚ
  | F32.fin q => some q
  | _ => none

/-! ## Constants of the engine -/

/-- Line 55: `#define LERP_RATIO (0.000005f * DELAY)`: the float literal, `DELAY` converted
to `float`, and the float product. -/
def LERP_RATIO : ℚ := round32 (round32 (5 / 1000000) * (DELAY : ℚ))

/-- The macro `MIN` of `<sys/param.h>`: `(((a)<(b))?(a):(b))`. -/
def MIN (a b : ℚ) : ℚ := if a < b then a else b

/-- The macro `MAX` of `<sys/param.h>`: `(((a)>(b))?(a):(b))`. -/
def MAX (a b : ℚ) : ℚ := if a > b then a else b

/-! ## The engine (lines 46-73) -/

/-- Lines 46-53: `struct Coordinate`. -/
structure Coordinate where
  data : Int
  smoothed : ℚ
  min : ℚ
  max : ℚ
  normalized : Option ℚ
deriving DecidableEq

/-- Lines 57-60: `return a + (b - a) * t;`, three float operations. -/
def lerp (a b t : ℚ) : ℚ := round32 (a + round32 (round32 (b - a) * t))

/-- Lines 62-65: `smoothed = min = max = normalized = data`. -/
def initCoordinate (c : Coordinate) : Coordinate :=
  { data := c.data
    smoothed := (c.data : ℚ)
    min := (c.data : ℚ)
    max := (c.data : ℚ)
    normalized := some (c.data : ℚ) }

/-- Lines 67-73. The four assignments are sequential: the bounds are computed from the
new `smoothed`, and `normalized` from the new `smoothed`, `min` and `max` by
`(smoothed - min) / (max - min) * 2.0f - 1.0f`. -/
def updateCoordinate (c : Coordinate) : Coordinate :=
  let smoothed := lerp c.smoothed (c.data : ℚ) LERP_RATIO
  let min := MIN c.min smoothed
  let max := MAX c.max smoothed
  { data := c.data
    smoothed := smoothed
    min := min
    max := max
    normalized :=
      (F32.sub
        (F32.mul
          (F32.div (F32.sub (F32.fin smoothed) (F32.fin min))
                   (F32.sub (F32.fin max) (F32.fin min)))
          (F32.fin 2))
        (F32.fin 1)).toOption }

/-- A driver read storing the raw sample `r` through the pointer `&coordinate.data`. -/
def store (c : Coordinate) (r : Int) : Coordinate :=
  { c with data := r }

/-- One loop iteration seen from a single channel: the read stores the sample, then
`updateCoordinate` runs (lines 199-213). -/
def sampleStep (c : Coordinate) (r : Int) : Coordinate :=
  updateCoordinate (store c r)

/-- Successive loop iterations of one channel over a sequence of raw samples. -/
def runSamples (c : Coordinate) (rs : List Int) : Coordinate :=
  rs.foldl sampleStep c

/-! ## The sampling loop of `main` (lines 174-252)

The drivers `ADXL345_ReadData`, `HMC5883L_ReadData`, `ITG3200_ReadData` and
`ITG3200_ReadTemperature` live outside `demo.c`; what each call returns and what it
stores through its pointers are inputs of the model. -/

/-- Outcome of one three-axis driver read: the value the call returns (non-zero on
failure, the convention the macro `CHECK` of line 81 applies to the drivers) and the three
samples stored through the pointers, if the driver stored any. -/
structure ReadData where
  ret : Int
  out : Option (Int × Int × Int)
deriving DecidableEq

/-- Outcome of `ITG3200_ReadTemperature`: return value and the sample stored, if any. -/
structure ReadTemperature where
  ret : Int
  out : Option Int
deriving DecidableEq

/-- One round of the four driver reads, in program order (lines 174-177 and 199-202). -/
structure Acquisition where
  a : ReadData
  c : ReadData
  g : ReadData
  t : ReadTemperature
deriving DecidableEq

/-- Lines 75-77: the ten global records. -/
structure Channels where
  aX : Coordinate
  aY : Coordinate
  aZ : Coordinate
  cX : Coordinate
  cY : Coordinate
  cZ : Coordinate
  gX : Coordinate
  gY : Coordinate
  gZ : Coordinate
  gT : Coordinate
deriving DecidableEq

/-- The static storage of lines 75-77 before any read: all fields zero. -/
def zeroCoordinate : Coordinate :=
  { data := 0, smoothed := 0, min := 0, max := 0, normalized := some 0 }

/-- All ten records zero-initialised. -/
def zeroChannels : Channels :=
  { aX := zeroCoordinate, aY := zeroCoordinate, aZ := zeroCoordinate
    cX := zeroCoordinate, cY := zeroCoordinate, cZ := zeroCoordinate
    gX := zeroCoordinate, gY := zeroCoordinate, gZ := zeroCoordinate
    gT := zeroCoordinate }

/-- What a driver call leaves in `coordinate.data`: the stored sample, or the old value
when the driver stored nothing. -/
def storeOut (c : Coordinate) (v : Option Int) : Coordinate :=
  match v with
  | some r => store c r
  | none => c

/-- Lines 174-177 and 199-202: the four reads. The values the calls return are dropped:
the calls are expression statements. -/
def readAll (q : Acquisition) (s : Channels) : Channels :=
  { aX := storeOut s.aX (q.a.out.map (fun p => p.1))
    aY := storeOut s.aY (q.a.out.map (fun p => p.2.1))
    aZ := storeOut s.aZ (q.a.out.map (fun p => p.2.2))
    cX := storeOut s.cX (q.c.out.map (fun p => p.1))
    cY := storeOut s.cY (q.c.out.map (fun p => p.2.1))
    cZ := storeOut s.cZ (q.c.out.map (fun p => p.2.2))
    gX := storeOut s.gX (q.g.out.map (fun p => p.1))
    gY := storeOut s.gY (q.g.out.map (fun p => p.2.1))
    gZ := storeOut s.gZ (q.g.out.map (fun p => p.2.2))
    gT := storeOut s.gT q.t.out }

/-- Lines 179-188: `initCoordinate` on each of the ten records. -/
def initAll (s : Channels) : Channels :=
  { aX := initCoordinate s.aX, aY := initCoordinate s.aY, aZ := initCoordinate s.aZ
    cX := initCoordinate s.cX, cY := initCoordinate s.cY, cZ := initCoordinate s.cZ
    gX := initCoordinate s.gX, gY := initCoordinate s.gY, gZ := initCoordinate s.gZ
    gT := initCoordinate s.gT }

/-- Lines 204-213: `updateCoordinate` on each of the ten records. -/
def updateAll (s : Channels) : Channels :=
  { aX := updateCoordinate s.aX, aY := updateCoordinate s.aY, aZ := updateCoordinate s.aZ
    cX := updateCoordinate s.cX, cY := updateCoordinate s.cY, cZ := updateCoordinate s.cZ
    gX := updateCoordinate s.gX, gY := updateCoordinate s.gY, gZ := updateCoordinate s.gZ
    gT := updateCoordinate s.gT }

/-- Program points of `main` from line 196 on. -/
inductive Pc where
  /-- line 196, `running = 1;` -/
  | setRunning
  /-- line 197, the test of `while (running)` -/
  | test
  /-- lines 199-202, the four reads -/
  | read
  /-- lines 204-213, the ten updates -/
  | update
  /-- lines 215-241, `clear`, the `mvprintw` calls, `refresh` -/
  | render
  /-- line 243, `usleep(DELAY)` -/
  | delay
  /-- lines 246-252, `endwin`, the three `close` calls, `return 0` -/
  | finish
  /-- the process has returned from `main` -/
  | done
deriving DecidableEq, Repr

/-- State of the running program: program point, the flag `running` (line 28), the ten
records, the number of acquisition rounds done, the snapshots rendered so far (latest
first), whether the bus handles are still open, and the value `main` returned. -/
structure Main where
  pc : Pc
  running : Int
  chans : Channels
  rounds : Nat
  screen : List Channels
  busOpen : Bool
  exitCode : Option Int
deriving DecidableEq

/-- Lines 30-33: the handler of SIGINT and SIGTERM, `running = 0;`. -/
def ctrlCHandler (m : Main) : Main :=
  { m with running := 0 }

/-- The program at line 196, after the configuration succeeded (lines 153-172), the first
acquisition round and the ten `initCoordinate` calls (lines 174-188), `setupHandlers` and
the ncurses set-up (lines 190-194). `sensor k` is the outcome of the `k`-th round of
reads; round 0 is the one before the loop. -/
def mainEntry (sensor : Nat → Acquisition) : Main :=
  { pc := Pc.setRunning
    running := 0
    chans := initAll (readAll (sensor 0) zeroChannels)
    rounds := 1
    screen := []
    busOpen := true
    exitCode := none }

/-- One step of the program text of lines 196-252. -/
def progStep (sensor : Nat → Acquisition) (m : Main) : Main :=
  match m.pc with
  | Pc.setRunning => { m with running := 1, pc := Pc.test }
  | Pc.test => if m.running ≠ 0 then { m with pc := Pc.read } else { m with pc := Pc.finish }
  | Pc.read =>
      { m with chans := readAll (sensor m.rounds) m.chans, rounds := m.rounds + 1,
               pc := Pc.update }
  | Pc.update => { m with chans := updateAll m.chans, pc := Pc.render }
  | Pc.render => { m with screen := m.chans :: m.screen, pc := Pc.delay }
  | Pc.delay => { m with pc := Pc.test }
  | Pc.finish => { m with busOpen := false, exitCode := some 0, pc := Pc.done }
  | Pc.done => m

/-- What happens next: the program executes its next step, or a signal is delivered and
the handler runs. -/
inductive Event where
  | prog
  | sig
deriving DecidableEq, Repr

/-- One event applied to the state. -/
def step (sensor : Nat → Acquisition) (m : Main) : Event → Main
  | Event.prog => progStep sensor m
  | Event.sig => ctrlCHandler m

/-- A whole schedule of events applied in order. -/
def exec (sensor : Nat → Acquisition) (m : Main) (evs : List Event) : Main :=
  evs.foldl (step sensor) m

/-- Number of program steps in a schedule. -/
def progCount (evs : List Event) : Nat :=
  evs.count Event.prog

/-- A dead bus: every driver read fails (returns -1) and stores nothing. -/
def deadBus : Nat → Acquisition :=
  fun _ => { a := ⟨-1, none⟩, c := ⟨-1, none⟩, g := ⟨-1, none⟩, t := ⟨-1, none⟩ }

/-- A quiet sensor: every read succeeds and stores zeros. -/
def quietBus : Nat → Acquisition :=
  fun _ => { a := ⟨0, some (0, 0, 0)⟩, c := ⟨0, some (0, 0, 0)⟩, g := ⟨0, some (0, 0, 0)⟩,
             t := ⟨0, some 0⟩ }

/-- One full loop iteration as a schedule: test, read, update, render, delay. -/
def iteration : List Event :=
  [Event.prog, Event.prog, Event.prog, Event.prog, Event.prog]

/-- The schedule of `k` full loop iterations with no signal. -/
def iterations : Nat → List Event
  | 0 => []
  | k + 1 => iteration ++ iterations k

/-- States the loop passes through once the flag is cleared during the delay: `r`
program steps after the delay started, with the rendered snapshots still `S`. -/
def Stopping (S : List Channels) (r : Nat) (m : Main) : Prop :=
  m.running = 0 ∧ m.screen = S ∧
  ((r = 0 ∧ m.pc = Pc.delay) ∨ (r = 1 ∧ m.pc = Pc.test) ∨ (r = 2 ∧ m.pc = Pc.finish) ∨
    (3 ≤ r ∧ m.pc = Pc.done ∧ m.exitCode = some 0 ∧ m.busOpen = false))

instance (S : List Channels) (r : Nat) (m : Main) : Decidable (Stopping S r m) := by
  unfold Stopping; infer_instance



/-! ## Rounding to nearest, ties to even -/

theorem rne_intCast (n : ℤ) : rne (n : ℚ) = n := by
  simp [rne]

theorem rne_cases (y : ℚ) : rne y = ⌊y⌋ ∨ rne y = ⌊y⌋ + 1 := by
  unfold rne; split_ifs <;> simp

theorem rne_ge (y : ℚ) : y - 1 / 2 ≤ (rne y : ℚ) := by
  have h1 := Int.floor_le y
  have h2 := Int.lt_floor_add_one y
  unfold rne; split_ifs with ha hb hc
  · linarith
  · push_cast; linarith
  · linarith
  · push_cast; linarith

theorem rne_le (y : ℚ) : (rne y : ℚ) ≤ y + 1 / 2 := by
  have h1 := Int.floor_le y
  have h2 := Int.lt_floor_add_one y
  unfold rne; split_ifs with ha hb hc
  · linarith
  · push_cast; linarith
  · linarith
  · push_cast; linarith

theorem rne_mono {x y : ℚ} (h : x ≤ y) : rne x ≤ rne y := by
  have hf : ⌊x⌋ ≤ ⌊y⌋ := Int.floor_le_floor h
  rcases lt_or_eq_of_le hf with hlt | heq
  · have hx : rne x ≤ ⌊x⌋ + 1 := by rcases rne_cases x with h1 | h1 <;> omega
    have hy : ⌊y⌋ ≤ rne y := by rcases rne_cases y with h1 | h1 <;> omega
    omega
  · unfold rne
    rw [heq]
    have hxy : x - (⌊y⌋ : ℚ) ≤ y - (⌊y⌋ : ℚ) := by linarith
    split_ifs <;> first | omega | (exfalso; linarith)

theorem rne_neg (y : ℚ) : rne (-y) = - rne y := by
  by_cases hint : (⌊y⌋ : ℚ) = y
  · rw [← hint, ← Int.cast_neg, rne_intCast, rne_intCast]
  · have h1 := Int.floor_le y
    have h2 := Int.lt_floor_add_one y
    have hlt : (⌊y⌋ : ℚ) < y := lt_of_le_of_ne h1 hint
    have hfl : ⌊-y⌋ = -⌊y⌋ - 1 := by
      rw [Int.floor_eq_iff]
      push_cast
      constructor <;> linarith
    unfold rne
    rw [hfl]
    push_cast
    split_ifs <;> first | omega | (exfalso; linarith)

theorem rne_nonneg {y : ℚ} (h : 0 ≤ y) : 0 ≤ rne y := by
  have := rne_mono h
  rwa [show (0 : ℚ) = ((0 : ℤ) : ℚ) by simp, rne_intCast] at this

/-! ## The exponent of a binade -/

theorem expoSteps_le (a : ℚ) (f : Nat) (p : ℚ) : expoSteps a f p ≤ f := by
  induction f generalizing p with
  | zero => simp [expoSteps]
  | succ k ih =>
    unfold expoSteps
    split_ifs
    · omega
    · have := ih (2 * p); omega

theorem expoSteps_upper (a : ℚ) (f : Nat) (p : ℚ) (h : expoSteps a f p < f) :
    a < p * 2 ^ (expoSteps a f p) := by
  induction f generalizing p with
  | zero => simp at h
  | succ k ih =>
    unfold expoSteps at h ⊢
    split_ifs with hc
    · simpa using hc
    · rw [if_neg hc] at h
      have := ih (2 * p) (by omega)
      rw [pow_succ]
      calc a < 2 * p * 2 ^ expoSteps a k (2 * p) := this
        _ = p * (2 ^ expoSteps a k (2 * p) * 2) := by ring

theorem expoSteps_lower (a : ℚ) (f : Nat) (p : ℚ) (h : 0 < expoSteps a f p) :
    p * 2 ^ (expoSteps a f p - 1) ≤ a := by
  induction f generalizing p with
  | zero => simp [expoSteps] at h
  | succ k ih =>
    unfold expoSteps at h ⊢
    split_ifs with hc
    · rw [if_pos hc] at h; omega
    · by_cases h0 : expoSteps a k (2 * p) = 0
      · rw [h0]; simpa using not_lt.mp hc
      · have := ih (2 * p) (by omega)
        have he : expoSteps a k (2 * p) + 1 - 1 = (expoSteps a k (2 * p) - 1) + 1 := by omega
        rw [he, pow_succ]
        calc p * (2 ^ (expoSteps a k (2 * p) - 1) * 2)
            = 2 * p * 2 ^ (expoSteps a k (2 * p) - 1) := by ring
          _ ≤ a := this

theorem expo_ge (x : ℚ) : -126 ≤ expo x := by
  unfold expo; omega

theorem expo_le (x : ℚ) : expo x ≤ 128 := by
  unfold expo
  have := expoSteps_le |x| 254 ((2 : ℚ) ^ (-125 : ℤ))
  omega

theorem two_zpow_pos (e : ℤ) : (0 : ℚ) < 2 ^ e := by positivity

theorem expo_upper (x : ℚ) (h : expo x < 128) : |x| < 2 ^ (expo x + 1) := by
  unfold expo at h ⊢
  have hs : expoSteps |x| 254 ((2 : ℚ) ^ (-125 : ℤ)) < 254 := by omega
  have := expoSteps_upper |x| 254 _ hs
  have he : (-126 + (expoSteps |x| 254 ((2 : ℚ) ^ (-125 : ℤ)) : ℤ) + 1)
      = -125 + ((expoSteps |x| 254 ((2 : ℚ) ^ (-125 : ℤ)) : ℕ) : ℤ) := by ring
  rw [he, zpow_add₀ (by norm_num : (2 : ℚ) ≠ 0), zpow_natCast]
  exact this

theorem expo_lower (x : ℚ) (h : -126 < expo x) : 2 ^ (expo x) ≤ |x| := by
  unfold expo at h ⊢
  have hs : 0 < expoSteps |x| 254 ((2 : ℚ) ^ (-125 : ℤ)) := by omega
  have := expoSteps_lower |x| 254 _ hs
  have he : (-126 + (expoSteps |x| 254 ((2 : ℚ) ^ (-125 : ℤ)) : ℤ))
      = -125 + ((expoSteps |x| 254 ((2 : ℚ) ^ (-125 : ℤ)) - 1 : ℕ) : ℤ) := by
    rw [Nat.cast_sub hs]; push_cast; ring
  rw [he, zpow_add₀ (by norm_num : (2 : ℚ) ≠ 0), zpow_natCast]
  exact this

theorem two_zpow_le {a b : ℤ} (h : a ≤ b) : (2 : ℚ) ^ a ≤ 2 ^ b :=
  zpow_le_zpow_right₀ (by norm_num) h

theorem expo_neg (x : ℚ) : expo (-x) = expo x := by
  unfold expo; rw [abs_neg]

theorem expo_mono {x y : ℚ} (h : |x| ≤ |y|) : expo x ≤ expo y := by
  by_contra hc
  push_neg at hc
  have h1 : expo y < 128 := by have := expo_le x; omega
  have h2 : -126 < expo x := by have := expo_ge y; omega
  have h3 := expo_upper y h1
  have h4 := expo_lower x h2
  have h5 : (2 : ℚ) ^ (expo y + 1) ≤ 2 ^ (expo x) := two_zpow_le (by omega)
  linarith

theorem ulp_pos (x : ℚ) : 0 < ulp x := by
  unfold ulp; positivity

theorem ulp_neg (x : ℚ) : ulp (-x) = ulp x := by
  unfold ulp; rw [expo_neg]

/-! ## Rounding to binary32 -/

theorem round32_zero : round32 0 = 0 := by
  unfold round32
  rw [zero_div, show (0 : ℚ) = ((0 : ℤ) : ℚ) by simp, rne_intCast]
  simp

theorem round32_neg (x : ℚ) : round32 (-x) = - round32 x := by
  unfold round32
  rw [ulp_neg, neg_div, rne_neg]
  push_cast; ring

theorem round32_nonneg {x : ℚ} (h : 0 ≤ x) : 0 ≤ round32 x := by
  unfold round32
  have hu := ulp_pos x
  have : 0 ≤ rne (x / ulp x) := rne_nonneg (div_nonneg h hu.le)
  have : (0 : ℚ) ≤ (rne (x / ulp x) : ℚ) := by exact_mod_cast this
  positivity

theorem round32_nonpos {x : ℚ} (h : x ≤ 0) : round32 x ≤ 0 := by
  have := round32_nonneg (x := -x) (by linarith)
  rw [round32_neg] at this
  linarith

/-- A value whose quotient by its own unit in the last place is an integer is kept. -/
theorem round32_of_quot (x : ℚ) (k : ℤ) (h : x / ulp x = (k : ℚ)) : round32 x = x := by
  unfold round32
  rw [h, rne_intCast, ← h]
  field_simp [(ulp_pos x).ne.symm]

theorem ulp_eq (x : ℚ) : ulp x = 2 ^ (expo x - 23) := rfl

theorem two24_mul_zpow (e : ℤ) : (16777216 : ℚ) * 2 ^ (e - 23) = 2 ^ (e + 1) := by
  rw [show (16777216 : ℚ) = 2 ^ (24 : ℤ) by norm_num,
    ← zpow_add₀ (by norm_num : (2 : ℚ) ≠ 0)]
  congr 1; ring

theorem two23_mul_zpow (e : ℤ) : (8388608 : ℚ) * 2 ^ (e - 23) = 2 ^ e := by
  rw [show (8388608 : ℚ) = 2 ^ (23 : ℤ) by norm_num,
    ← zpow_add₀ (by norm_num : (2 : ℚ) ≠ 0)]
  congr 1; ring

/-- In a binade below the cap the rounded magnitude stays at or under the next power. -/
theorem round32_le_top {x : ℚ} (h0 : 0 ≤ x) (h : expo x < 128) :
    round32 x ≤ 2 ^ (expo x + 1) := by
  have hu := ulp_pos x
  have hx := expo_upper x h
  rw [abs_of_nonneg h0] at hx
  have hq : x / ulp x ≤ ((2 ^ 24 : ℤ) : ℚ) := by
    rw [div_le_iff₀ hu, ulp_eq]
    have : ((2 ^ 24 : ℤ) : ℚ) * 2 ^ (expo x - 23) = 2 ^ (expo x + 1) := by
      push_cast; exact two24_mul_zpow _
    rw [this]; exact hx.le
  have hr := rne_mono hq
  rw [rne_intCast] at hr
  have hr2 : (rne (x / ulp x) : ℚ) ≤ ((2 ^ 24 : ℤ) : ℚ) := by exact_mod_cast hr
  unfold round32
  calc (rne (x / ulp x) : ℚ) * ulp x ≤ ((2 ^ 24 : ℤ) : ℚ) * ulp x :=
        mul_le_mul_of_nonneg_right hr2 hu.le
    _ = 2 ^ (expo x + 1) := by
        rw [ulp_eq]; push_cast; exact two24_mul_zpow _

/-- Above the lowest binade the rounded magnitude stays at or over the binade start. -/
theorem round32_ge_bot {x : ℚ} (h0 : 0 ≤ x) (h : -126 < expo x) :
    2 ^ (expo x) ≤ round32 x := by
  have hu := ulp_pos x
  have hx := expo_lower x h
  rw [abs_of_nonneg h0] at hx
  have hq : ((2 ^ 23 : ℤ) : ℚ) ≤ x / ulp x := by
    rw [le_div_iff₀ hu, ulp_eq]
    have : ((2 ^ 23 : ℤ) : ℚ) * 2 ^ (expo x - 23) = 2 ^ (expo x) := by
      push_cast; exact two23_mul_zpow _
    rw [this]; exact hx
  have hr := rne_mono hq
  rw [rne_intCast] at hr
  have hr2 : ((2 ^ 23 : ℤ) : ℚ) ≤ (rne (x / ulp x) : ℚ) := by exact_mod_cast hr
  unfold round32
  calc (2 : ℚ) ^ (expo x) = ((2 ^ 23 : ℤ) : ℚ) * ulp x := by
        rw [ulp_eq]; push_cast; exact (two23_mul_zpow _).symm
    _ ≤ (rne (x / ulp x) : ℚ) * ulp x := mul_le_mul_of_nonneg_right hr2 hu.le

theorem round32_mono_nonneg {x y : ℚ} (h0 : 0 ≤ x) (h : x ≤ y) : round32 x ≤ round32 y := by
  have hy0 : 0 ≤ y := le_trans h0 h
  have he : expo x ≤ expo y := expo_mono (by rwa [abs_of_nonneg h0, abs_of_nonneg hy0])
  rcases lt_or_eq_of_le he with hlt | heq
  · have h1 := round32_le_top h0 (by have := expo_le y; omega)
    have h2 := round32_ge_bot hy0 (by have := expo_ge x; omega)
    have h3 : (2 : ℚ) ^ (expo x + 1) ≤ 2 ^ (expo y) := two_zpow_le (by omega)
    linarith
  · have hu : ulp x = ulp y := by rw [ulp_eq, ulp_eq, heq]
    unfold round32
    rw [hu]
    have hq : x / ulp y ≤ y / ulp y := div_le_div_of_nonneg_right h (ulp_pos y).le
    have hr : (rne (x / ulp y) : ℚ) ≤ (rne (y / ulp y) : ℚ) := by exact_mod_cast rne_mono hq
    exact mul_le_mul_of_nonneg_right hr (ulp_pos y).le

/-- Rounding to binary32 is monotone. -/
theorem round32_mono {x y : ℚ} (h : x ≤ y) : round32 x ≤ round32 y := by
  rcases le_total 0 x with hx | hx
  · exact round32_mono_nonneg hx h
  · rcases le_total 0 y with hy | hy
    · exact le_trans (round32_nonpos hx) (round32_nonneg hy)
    · have := round32_mono_nonneg (x := -y) (y := -x) (by linarith) (by linarith)
      rw [round32_neg, round32_neg] at this
      linarith

/-- Every rounded value is an integer multiple of the smallest subnormal `2^-149`. -/
theorem round32_grid (x : ℚ) : ∃ m : ℤ, round32 x = (m : ℚ) * 2 ^ (-149 : ℤ) := by
  have he := expo_ge x
  obtain ⟨n, hn⟩ : ∃ n : ℕ, expo x - 23 = (n : ℤ) + (-149) :=
    ⟨(expo x + 126).toNat, by omega⟩
  refine ⟨rne (x / ulp x) * 2 ^ n, ?_⟩
  unfold round32
  rw [ulp_eq, hn, zpow_add₀ (by norm_num : (2 : ℚ) ≠ 0), zpow_natCast]
  push_cast; ring

/-- For non-negative input the rounded value is at most twice the input. -/
theorem round32_le_two_mul {x : ℚ} (h : 0 ≤ x) : round32 x ≤ 2 * x := by
  have hu := ulp_pos x
  have hk := rne_le (x / ulp x)
  have hk0 : 0 ≤ rne (x / ulp x) := rne_nonneg (div_nonneg h hu.le)
  unfold round32
  rcases eq_or_lt_of_le hk0 with h0 | hpos
  · rw [← h0]; simp; linarith
  · have h1 : (1 : ℚ) ≤ (rne (x / ulp x) : ℚ) := by exact_mod_cast hpos
    have h2 : (rne (x / ulp x) : ℚ) ≤ 2 * (x / ulp x) := by linarith
    calc (rne (x / ulp x) : ℚ) * ulp x ≤ 2 * (x / ulp x) * ulp x :=
          mul_le_mul_of_nonneg_right h2 hu.le
      _ = 2 * x := by field_simp

/-- Integers of magnitude below `2^24` are binary32 values: the conversion of a `short` to
`float` is exact. -/
theorem round32_intCast (n : ℤ) (h : |n| < 2 ^ 24) : round32 (n : ℚ) = (n : ℚ) := by
  have hq : |(n : ℚ)| < 2 ^ (24 : ℤ) := by
    rw [← Int.cast_abs]
    have : ((|n| : ℤ) : ℚ) < ((2 ^ 24 : ℤ) : ℚ) := by exact_mod_cast h
    calc ((|n| : ℤ) : ℚ) < ((2 ^ 24 : ℤ) : ℚ) := this
      _ = 2 ^ (24 : ℤ) := by norm_num
  have he : expo (n : ℚ) ≤ 23 := by
    by_contra hc
    push_neg at hc
    have h1 := expo_lower (n : ℚ) (by omega)
    have h2 : (2 : ℚ) ^ (24 : ℤ) ≤ 2 ^ (expo (n : ℚ)) := two_zpow_le (by omega)
    linarith
  obtain ⟨m, hm⟩ : ∃ m : ℕ, expo (n : ℚ) - 23 = -(m : ℤ) := ⟨(23 - expo (n : ℚ)).toNat, by omega⟩
  apply round32_of_quot _ (n * 2 ^ m)
  rw [ulp_eq, hm, zpow_neg, zpow_natCast]
  push_cast
  field_simp

/-! ## Concrete binary32 values -/

theorem lerpRatio_value : LERP_RATIO = 10066329 / 67108864 := by decide!

theorem round32_one : round32 1 = 1 := by decide!

theorem round32_two : round32 2 = 2 := by decide!

theorem round32_neg_one : round32 (-1) = -1 := by decide!

theorem round32_FLT_MAX : round32 FLT_MAX = FLT_MAX := by decide!

theorem FLT_MAX_ge_two : (2 : ℚ) ≤ FLT_MAX := by decide!

theorem round32_minSubnormal : round32 (2 ^ (-149 : ℤ)) = 2 ^ (-149 : ℤ) := by decide!

theorem round32_abs_le {x : ℚ} (h : |x| ≤ FLT_MAX) : |round32 x| ≤ FLT_MAX := by
  rw [abs_le] at h ⊢
  constructor
  · have := round32_mono h.1
    rwa [round32_neg, round32_FLT_MAX] at this
  · have := round32_mono h.2
    rwa [round32_FLT_MAX] at this

theorem ofRat_of_abs_le {x : ℚ} (h : |x| ≤ FLT_MAX) : F32.ofRat x = F32.fin (round32 x) := by
  unfold F32.ofRat
  rw [if_pos (round32_abs_le h)]

theorem round32_short (v : ℤ) (h1 : -32768 ≤ v) (h2 : v ≤ 32767) :
    round32 (v : ℚ) = (v : ℚ) := by
  apply round32_intCast
  rw [abs_lt]; constructor <;> norm_num <;> omega

/-! ## Helper lemmas on the engine -/

theorem MIN_le_left (a b : ℚ) : MIN a b ≤ a := by
  unfold MIN; split_ifs <;> linarith

theorem MIN_le_right (a b : ℚ) : MIN a b ≤ b := by
  unfold MIN; split_ifs <;> linarith

theorem le_MAX_left (a b : ℚ) : a ≤ MAX a b := by
  unfold MAX; split_ifs <;> linarith

theorem le_MAX_right (a b : ℚ) : b ≤ MAX a b := by
  unfold MAX; split_ifs <;> linarith

theorem update_smoothed (c : Coordinate) :
    (updateCoordinate c).smoothed = lerp c.smoothed (c.data : ℚ) LERP_RATIO := rfl

theorem update_min (c : Coordinate) :
    (updateCoordinate c).min = MIN c.min (updateCoordinate c).smoothed := rfl

theorem update_max (c : Coordinate) :
    (updateCoordinate c).max = MAX c.max (updateCoordinate c).smoothed := rfl

theorem update_normalized (c : Coordinate) :
    (updateCoordinate c).normalized =
      (F32.sub
        (F32.mul
          (F32.div
            (F32.sub (F32.fin (updateCoordinate c).smoothed) (F32.fin (updateCoordinate c).min))
            (F32.sub (F32.fin (updateCoordinate c).max) (F32.fin (updateCoordinate c).min)))
          (F32.fin 2))
        (F32.fin 1)).toOption := rfl

theorem update_min_le_smoothed (c : Coordinate) :
    (updateCoordinate c).min ≤ (updateCoordinate c).smoothed := by
  rw [update_min]; exact MIN_le_right _ _

theorem update_smoothed_le_max (c : Coordinate) :
    (updateCoordinate c).smoothed ≤ (updateCoordinate c).max := by
  rw [update_max]; exact le_MAX_right _ _

theorem update_min_le (c : Coordinate) : (updateCoordinate c).min ≤ c.min := by
  rw [update_min]; exact MIN_le_left _ _

theorem update_le_max (c : Coordinate) : c.max ≤ (updateCoordinate c).max := by
  rw [update_max]; exact le_MAX_left _ _

theorem runSamples_append (c : Coordinate) (xs ys : List Int) :
    runSamples c (xs ++ ys) = runSamples (runSamples c xs) ys := by
  simp [runSamples, List.foldl_append]

theorem runSamples_snoc (c : Coordinate) (xs : List Int) (r : Int) :
    runSamples c (xs ++ [r]) = updateCoordinate (store (runSamples c xs) r) := by
  simp [runSamples, List.foldl_append, sampleStep]

theorem runSamples_min_le (c : Coordinate) (ys : List Int) :
    (runSamples c ys).min ≤ c.min ∧ c.max ≤ (runSamples c ys).max := by
  induction ys generalizing c with
  | nil => simp [runSamples]
  | cons r rs ih =>
    have h := ih (sampleStep c r)
    have h1 := update_min_le (store c r)
    have h2 := update_le_max (store c r)
    simp only [runSamples, List.foldl_cons] at h ⊢
    simp only [sampleStep] at h ⊢
    simp only [store] at h1 h2
    constructor
    · exact le_trans h.1 h1
    · exact le_trans h2 h.2

/-- Claim C1: whatever the state and the raw sample held in `data`, the state produced by
`updateCoordinate` has `min ≤ smoothed ≤ max`; hence after `initCoordinate`, the state
after each update of any sequence of raw samples satisfies it too. -/
theorem updateCoordinate_bounds :
    (∀ c : Coordinate,
      (updateCoordinate c).min ≤ (updateCoordinate c).smoothed ∧
      (updateCoordinate c).smoothed ≤ (updateCoordinate c).max) ∧
    (∀ (c : Coordinate) (rs : List Int) (r : Int),
      (runSamples (initCoordinate c) (rs ++ [r])).min
          ≤ (runSamples (initCoordinate c) (rs ++ [r])).smoothed ∧
      (runSamples (initCoordinate c) (rs ++ [r])).smoothed
          ≤ (runSamples (initCoordinate c) (rs ++ [r])).max) := by
  refine ⟨fun c => ⟨update_min_le_smoothed c, update_smoothed_le_max c⟩, ?_⟩
  intro c rs r
  rw [runSamples_snoc]
  exact ⟨update_min_le_smoothed _, update_smoothed_le_max _⟩

/-- Claim C4: `updateCoordinate` never shrinks the bounds, and along any sequence of
successive updates on the same state `min` is non-increasing and `max` non-decreasing. -/
theorem updateCoordinate_bounds_monotone :
    (∀ c : Coordinate,
      (updateCoordinate c).min ≤ c.min ∧ c.max ≤ (updateCoordinate c).max) ∧
    (∀ (c : Coordinate) (xs ys : List Int),
      (runSamples c (xs ++ ys)).min ≤ (runSamples c xs).min ∧
      (runSamples c xs).max ≤ (runSamples c (xs ++ ys)).max) := by
  refine ⟨fun c => ⟨update_min_le c, update_le_max c⟩, ?_⟩
  intro c xs ys
  rw [runSamples_append]
  exact runSamples_min_le _ _

/-- Claim C6: `initCoordinate` sets `smoothed`, `min`, `max` and `normalized` to the raw
sample held in `data` (`normalized` is the sample itself) and leaves `data` as it is. -/
theorem initCoordinate_spec (c : Coordinate) :
    (initCoordinate c).smoothed = (c.data : ℚ) ∧
    (initCoordinate c).min = (c.data : ℚ) ∧
    (initCoordinate c).max = (c.data : ℚ) ∧
    (initCoordinate c).normalized = some (c.data : ℚ) ∧
    (initCoordinate c).data = c.data := by
  simp [initCoordinate]

/-- Claim C3, as stated, fails: init on sample 100 followed by an update whose sample is
again 100 leaves `max = min`, and `normalized` is not `0`. -/
theorem degenerate_normalized_not_zero :
    (sampleStep (initCoordinate ⟨100, 0, 0, 0, some 0⟩) 100).max
      = (sampleStep (initCoordinate ⟨100, 0, 0, 0, some 0⟩) 100).min ∧
    (sampleStep (initCoordinate ⟨100, 0, 0, 0, some 0⟩) 100).normalized ≠ some 0 := by
  decide!

theorem ofRat_zero : F32.ofRat 0 = F32.fin 0 := by decide!

/-- Claim C3, amended: when `max = min` after the bound update, the division of
`updateCoordinate` is carried out on a zero divisor (and a zero numerator) with no guard,
so `normalized` receives no number, in particular not `0`. -/
theorem updateCoordinate_degenerate (c : Coordinate)
    (h : (updateCoordinate c).max = (updateCoordinate c).min) :
    (updateCoordinate c).smoothed - (updateCoordinate c).min = 0 ∧
    (updateCoordinate c).max - (updateCoordinate c).min = 0 ∧
    (updateCoordinate c).normalized = none ∧
    (updateCoordinate c).normalized ≠ some 0 := by
  have h1 := update_min_le_smoothed c
  have h2 := update_smoothed_le_max c
  have hs : (updateCoordinate c).smoothed - (updateCoordinate c).min = 0 := by linarith
  have hd : (updateCoordinate c).max - (updateCoordinate c).min = 0 := by rw [h]; ring
  have hn : (updateCoordinate c).normalized = none := by
    rw [update_normalized]
    simp only [F32.sub, hs, hd, ofRat_zero]
    simp [F32.div, F32.mul, F32.sub, F32.toOption]
  refine ⟨hs, hd, hn, ?_⟩
  rw [hn]; simp

/-- Witness for the amended C3: the record after init on sample 100, sample 100 again. -/
theorem updateCoordinate_degenerate_witness :
    (updateCoordinate ⟨100, 100, 100, 100, some 100⟩).smoothed
      - (updateCoordinate ⟨100, 100, 100, 100, some 100⟩).min = 0 ∧
    (updateCoordinate ⟨100, 100, 100, 100, some 100⟩).max
      - (updateCoordinate ⟨100, 100, 100, 100, some 100⟩).min = 0 ∧
    (updateCoordinate ⟨100, 100, 100, 100, some 100⟩).normalized = none ∧
    (updateCoordinate ⟨100, 100, 100, 100, some 100⟩).normalized ≠ some 0 :=
  updateCoordinate_degenerate ⟨100, 100, 100, 100, some 100⟩ (by decide!)

/-! ## The filter stays between its two arguments -/

theorem lerp_between_up {a b t : ℚ} (ha : round32 a = a) (hb : round32 b = b)
    (hab : a ≤ b) (ht0 : 0 ≤ t) (ht : t ≤ 1 / 4) : a ≤ lerp a b t ∧ lerp a b t ≤ b := by
  have hd0 : 0 ≤ round32 (b - a) := round32_nonneg (by linarith)
  have hd2 : round32 (b - a) ≤ 2 * (b - a) := round32_le_two_mul (by linarith)
  have hm0 : 0 ≤ round32 (b - a) * t := mul_nonneg hd0 ht0
  have hp0 : 0 ≤ round32 (round32 (b - a) * t) := round32_nonneg hm0
  have hp2 : round32 (round32 (b - a) * t) ≤ 2 * (round32 (b - a) * t) :=
    round32_le_two_mul hm0
  have hm1 : round32 (b - a) * t ≤ 2 * (b - a) * (1 / 4) :=
    mul_le_mul hd2 ht ht0 (by linarith)
  unfold lerp
  constructor
  · have := round32_mono (x := a) (y := a + round32 (round32 (b - a) * t)) (by linarith)
    rwa [ha] at this
  · have := round32_mono (x := a + round32 (round32 (b - a) * t)) (y := b) (by linarith)
    rwa [hb] at this

theorem lerp_between_down {a b t : ℚ} (ha : round32 a = a) (hb : round32 b = b)
    (hab : b ≤ a) (ht0 : 0 ≤ t) (ht : t ≤ 1 / 4) : b ≤ lerp a b t ∧ lerp a b t ≤ a := by
  have hneg : round32 (b - a) = - round32 (a - b) := by
    rw [← round32_neg]; congr 1; ring
  have hd0 : 0 ≤ round32 (a - b) := round32_nonneg (by linarith)
  have hd2 : round32 (a - b) ≤ 2 * (a - b) := round32_le_two_mul (by linarith)
  have hm0 : 0 ≤ round32 (a - b) * t := mul_nonneg hd0 ht0
  have hpn : round32 (round32 (b - a) * t) = - round32 (round32 (a - b) * t) := by
    rw [hneg, neg_mul, round32_neg]
  have hp0 : 0 ≤ round32 (round32 (a - b) * t) := round32_nonneg hm0
  have hp2 : round32 (round32 (a - b) * t) ≤ 2 * (round32 (a - b) * t) :=
    round32_le_two_mul hm0
  have hm1 : round32 (a - b) * t ≤ 2 * (a - b) * (1 / 4) :=
    mul_le_mul hd2 ht ht0 (by linarith)
  unfold lerp
  rw [hpn]
  constructor
  · have := round32_mono (x := b) (y := a + -round32 (round32 (a - b) * t)) (by linarith)
    rwa [hb] at this
  · have := round32_mono (x := a + -round32 (round32 (a - b) * t)) (y := a) (by linarith)
    rwa [ha] at this

theorem lerpRatio_bounds : 0 ≤ LERP_RATIO ∧ LERP_RATIO ≤ 1 / 4 := by
  rw [lerpRatio_value]; constructor <;> norm_num

theorem round32_FLT_MAX_add_short : round32 (FLT_MAX + 32768) = FLT_MAX := by decide!

theorem FLT_MAX_ge_short : (32768 : ℚ) ≤ FLT_MAX := by decide!

/-- Line 69 stays within the float range: on a finite `smoothed` and a `short` sample,
the difference, the product and the sum of `lerp` are all finite. -/
theorem lerp_in_range (a : ℚ) (v : ℤ) (ha : IsF32 a) (hlo : -32768 ≤ v) (hhi : v ≤ 32767) :
    |round32 ((v : ℚ) - a)| ≤ FLT_MAX ∧
    |round32 (round32 ((v : ℚ) - a) * LERP_RATIO)| ≤ FLT_MAX ∧
    |lerp a (v : ℚ) LERP_RATIO| ≤ FLT_MAX := by
  obtain ⟨hfix, hrange⟩ := ha
  have hv := round32_short v hlo hhi
  have hvl : (-32768 : ℚ) ≤ (v : ℚ) := by exact_mod_cast hlo
  have hvh : (v : ℚ) ≤ 32767 := by exact_mod_cast hhi
  have hS := FLT_MAX_ge_short
  rw [abs_le] at hrange
  have hd : |round32 ((v : ℚ) - a)| ≤ FLT_MAX := by
    rw [abs_le]
    constructor
    · have := round32_mono (x := -(FLT_MAX + 32768)) (y := (v : ℚ) - a) (by linarith)
      rwa [round32_neg, round32_FLT_MAX_add_short] at this
    · have := round32_mono (x := (v : ℚ) - a) (y := FLT_MAX + 32768) (by linarith)
      rwa [round32_FLT_MAX_add_short] at this
  refine ⟨hd, ?_, ?_⟩
  · apply round32_abs_le
    rw [abs_mul, abs_of_nonneg lerpRatio_bounds.1]
    have h1 := abs_nonneg (round32 ((v : ℚ) - a))
    have h2 := lerpRatio_bounds.2
    calc |round32 ((v : ℚ) - a)| * LERP_RATIO ≤ |round32 ((v : ℚ) - a)| * 1 :=
          mul_le_mul_of_nonneg_left (by linarith) h1
      _ ≤ FLT_MAX := by rw [mul_one]; exact hd
  · rw [abs_le]
    rcases le_total a (v : ℚ) with hle | hge
    · obtain ⟨h1, h2⟩ := lerp_between_up hfix hv hle lerpRatio_bounds.1 lerpRatio_bounds.2
      constructor <;> linarith
    · obtain ⟨h1, h2⟩ := lerp_between_down hfix hv hge lerpRatio_bounds.1 lerpRatio_bounds.2
      constructor <;> linarith

theorem grid_of_fixed {x : ℚ} (h : round32 x = x) :
    ∃ m : ℤ, x = (m : ℚ) * 2 ^ (-149 : ℤ) := by
  obtain ⟨m, hm⟩ := round32_grid x
  exact ⟨m, by rw [h] at hm; exact hm⟩

theorem round32_sub_pos {lo hi : ℚ} (glo : ∃ m : ℤ, lo = (m : ℚ) * 2 ^ (-149 : ℤ))
    (ghi : ∃ m : ℤ, hi = (m : ℚ) * 2 ^ (-149 : ℤ)) (h : lo < hi) :
    0 < round32 (hi - lo) := by
  obtain ⟨ml, hl⟩ := glo
  obtain ⟨mh, hh⟩ := ghi
  have hq : (0 : ℚ) < 2 ^ (-149 : ℤ) := two_zpow_pos _
  have hm : ml < mh := by
    by_contra hc
    push_neg at hc
    have : (mh : ℚ) ≤ (ml : ℚ) := by exact_mod_cast hc
    have := mul_le_mul_of_nonneg_right this hq.le
    rw [hl, hh] at h
    linarith
  have h1 : (1 : ℚ) ≤ (mh : ℚ) - (ml : ℚ) := by
    have : ml + 1 ≤ mh := hm
    have : ((ml + 1 : ℤ) : ℚ) ≤ (mh : ℚ) := by exact_mod_cast this
    push_cast at this; linarith
  have h2 : (2 : ℚ) ^ (-149 : ℤ) ≤ hi - lo := by
    rw [hl, hh]
    have := mul_le_mul_of_nonneg_right h1 hq.le
    linarith
  have h3 := round32_mono h2
  rw [round32_minSubnormal] at h3
  linarith

theorem MIN_cases (a b : ℚ) : MIN a b = a ∨ MIN a b = b := by
  unfold MIN; split_ifs <;> simp

theorem MAX_cases (a b : ℚ) : MAX a b = a ∨ MAX a b = b := by
  unfold MAX; split_ifs <;> simp

theorem update_smoothed_grid (c : Coordinate) :
    ∃ m : ℤ, (updateCoordinate c).smoothed = (m : ℚ) * 2 ^ (-149 : ℤ) := by
  rw [update_smoothed]; unfold lerp; exact round32_grid _

theorem update_min_grid (c : Coordinate) (h : round32 c.min = c.min) :
    ∃ m : ℤ, (updateCoordinate c).min = (m : ℚ) * 2 ^ (-149 : ℤ) := by
  rw [update_min]
  rcases MIN_cases c.min (updateCoordinate c).smoothed with h1 | h1
  · rw [h1]; exact grid_of_fixed h
  · rw [h1]; exact update_smoothed_grid c

theorem update_max_grid (c : Coordinate) (h : round32 c.max = c.max) :
    ∃ m : ℤ, (updateCoordinate c).max = (m : ℚ) * 2 ^ (-149 : ℤ) := by
  rw [update_max]
  rcases MAX_cases c.max (updateCoordinate c).smoothed with h1 | h1
  · rw [h1]; exact grid_of_fixed h
  · rw [h1]; exact update_smoothed_grid c

theorem abs_le_of_unit {x : ℚ} (h0 : -2 ≤ x) (h1 : x ≤ 2) : |x| ≤ FLT_MAX := by
  have := FLT_MAX_ge_two
  rw [abs_le]; constructor <;> linarith

/-- The arithmetic of line 72 on a record with `lo ≤ s ≤ hi`, `lo < hi`, a difference
within range and a divisor that rounds to a positive number. -/
theorem normalize_range {s lo hi : ℚ} (h1 : lo ≤ s) (h2 : s ≤ hi)
    (hfin : hi - lo ≤ FLT_MAX) (hpos : 0 < round32 (hi - lo)) :
    ∃ n : ℚ,
      (F32.sub (F32.mul (F32.div (F32.sub (F32.fin s) (F32.fin lo))
          (F32.sub (F32.fin hi) (F32.fin lo))) (F32.fin 2)) (F32.fin 1)).toOption = some n ∧
      -1 ≤ n ∧ n ≤ 1 ∧ (s ≠ lo ∨ n = -1) ∧ (s ≠ hi ∨ n = 1) := by
  have hd1 : |s - lo| ≤ FLT_MAX := by
    rw [abs_of_nonneg (by linarith)]; linarith
  have hd2 : |hi - lo| ≤ FLT_MAX := by
    rw [abs_of_nonneg (by linarith)]; exact hfin
  have hD1 : 0 ≤ round32 (s - lo) := round32_nonneg (by linarith)
  have hD12 : round32 (s - lo) ≤ round32 (hi - lo) := round32_mono (by linarith)
  have hq0 : 0 ≤ round32 (s - lo) / round32 (hi - lo) := div_nonneg hD1 hpos.le
  have hq1 : round32 (s - lo) / round32 (hi - lo) ≤ 1 := (div_le_one hpos).mpr hD12
  have hQ0 : 0 ≤ round32 (round32 (s - lo) / round32 (hi - lo)) := round32_nonneg hq0
  have hQ1 : round32 (round32 (s - lo) / round32 (hi - lo)) ≤ 1 := by
    have := round32_mono hq1; rwa [round32_one] at this
  have hM0 : 0 ≤ round32 (round32 (round32 (s - lo) / round32 (hi - lo)) * 2) :=
    round32_nonneg (by linarith)
  have hM2 : round32 (round32 (round32 (s - lo) / round32 (hi - lo)) * 2) ≤ 2 := by
    have := round32_mono (x := round32 (round32 (s - lo) / round32 (hi - lo)) * 2) (y := 2)
      (by linarith)
    rwa [round32_two] at this
  have hN0 : -1 ≤ round32
      (round32 (round32 (round32 (s - lo) / round32 (hi - lo)) * 2) - 1) := by
    have := round32_mono (x := -1)
      (y := round32 (round32 (round32 (s - lo) / round32 (hi - lo)) * 2) - 1) (by linarith)
    rwa [round32_neg_one] at this
  have hN1 : round32
      (round32 (round32 (round32 (s - lo) / round32 (hi - lo)) * 2) - 1) ≤ 1 := by
    have := round32_mono
      (x := round32 (round32 (round32 (s - lo) / round32 (hi - lo)) * 2) - 1) (y := 1)
      (by linarith)
    rwa [round32_one] at this
  refine ⟨round32 (round32 (round32 (round32 (s - lo) / round32 (hi - lo)) * 2) - 1),
    ?_, hN0, hN1, ?_, ?_⟩
  · simp only [F32.sub, F32.div, F32.mul]
    rw [ofRat_of_abs_le hd1, ofRat_of_abs_le hd2]
    simp only [F32.div, if_neg hpos.ne.symm]
    rw [ofRat_of_abs_le (abs_le_of_unit (by linarith) (by linarith))]
    simp only [F32.mul]
    rw [ofRat_of_abs_le (abs_le_of_unit (by linarith) (by linarith))]
    simp only [F32.sub]
    rw [ofRat_of_abs_le (abs_le_of_unit (by linarith) (by linarith))]
    rfl
  · by_cases hs : s = lo
    · right
      rw [hs, sub_self, round32_zero, zero_div, round32_zero, zero_mul, round32_zero,
        zero_sub, round32_neg_one]
    · left; exact hs
  · by_cases hs : s = hi
    · right
      rw [hs, div_self hpos.ne.symm, round32_one, one_mul, round32_two]
      norm_num
      exact round32_one
    · left; exact hs

/-- Claim C2, as stated, fails: on a record of binary32 values with `min = 0`,
`max = 5033011/1024` and a small positive `smoothed` (where a channel arrives from an init
on 0, one sample 32767 and a long run of samples 0), an update on sample 0 leaves
`max > min` and `smoothed` above `min`, yet `normalized` is exactly `-1`: the small
quotient is absorbed when 1 is subtracted. -/
theorem normalized_minus_one_off_min :
    IsF32 (1454219 / 17179869184) ∧ IsF32 0 ∧ IsF32 (5033011 / 1024) ∧
    (updateCoordinate ⟨0, 1454219 / 17179869184, 0, 5033011 / 1024,
        some (-16777215 / 16777216)⟩).min
      < (updateCoordinate ⟨0, 1454219 / 17179869184, 0, 5033011 / 1024,
        some (-16777215 / 16777216)⟩).max ∧
    (updateCoordinate ⟨0, 1454219 / 17179869184, 0, 5033011 / 1024,
        some (-16777215 / 16777216)⟩).normalized = some (-1) ∧
    (updateCoordinate ⟨0, 1454219 / 17179869184, 0, 5033011 / 1024,
        some (-16777215 / 16777216)⟩).smoothed
      ≠ (updateCoordinate ⟨0, 1454219 / 17179869184, 0, 5033011 / 1024,
        some (-16777215 / 16777216)⟩).min := by
  decide!

/-- Claim C2, amended: for a record whose `min` and `max` hold finite binary32 values, if after
`updateCoordinate` `max > min` (their difference within the float range), then
`normalized` is a number in `[-1, 1]`; it is `-1` when `smoothed = min` and `1` when
`smoothed = max` (all values of the state after the update). The converses are not
claimed. -/
theorem normalized_range_and_endpoints (c : Coordinate)
    (hmin : IsF32 c.min) (hmax : IsF32 c.max)
    (hfin : (updateCoordinate c).max - (updateCoordinate c).min ≤ FLT_MAX)
    (h : (updateCoordinate c).min < (updateCoordinate c).max) :
    ∃ n : ℚ, (updateCoordinate c).normalized = some n ∧
      -1 ≤ n ∧ n ≤ 1 ∧
      ((updateCoordinate c).smoothed ≠ (updateCoordinate c).min ∨ n = -1) ∧
      ((updateCoordinate c).smoothed ≠ (updateCoordinate c).max ∨ n = 1) := by
  rw [update_normalized]
  exact normalize_range (update_min_le_smoothed c) (update_smoothed_le_max c) hfin
    (round32_sub_pos (update_min_grid c hmin.1) (update_max_grid c hmax.1) h)

/-- Witness for the amended C2: init on sample 100, then an update on sample 200. -/
theorem normalized_range_and_endpoints_witness :
    IsF32 (100 : ℚ) ∧
    (updateCoordinate ⟨200, 100, 100, 100, some 100⟩).max
      - (updateCoordinate ⟨200, 100, 100, 100, some 100⟩).min ≤ FLT_MAX ∧
    (updateCoordinate ⟨200, 100, 100, 100, some 100⟩).min
      < (updateCoordinate ⟨200, 100, 100, 100, some 100⟩).max ∧
    ∃ n : ℚ, (updateCoordinate ⟨200, 100, 100, 100, some 100⟩).normalized = some n ∧
      -1 ≤ n ∧ n ≤ 1 ∧
      ((updateCoordinate ⟨200, 100, 100, 100, some 100⟩).smoothed
        ≠ (updateCoordinate ⟨200, 100, 100, 100, some 100⟩).min ∨ n = -1) ∧
      ((updateCoordinate ⟨200, 100, 100, 100, some 100⟩).smoothed
        ≠ (updateCoordinate ⟨200, 100, 100, 100, some 100⟩).max ∨ n = 1) :=
  ⟨by decide!, by decide!, by decide!,
   normalized_range_and_endpoints ⟨200, 100, 100, 100, some 100⟩
     (by decide!) (by decide!) (by decide!) (by decide!)⟩

/-! ## The scenario trace and the ratio edge case -/

/-- Claim C7, as stated, fails: the ratio of the program is not 0.15, and after init on
100, update on 200 and update on 50 `normalized` is not `-0.3`. -/
theorem scenario_values_not_exact :
    LERP_RATIO ≠ 15 / 100 ∧
    (sampleStep (sampleStep (initCoordinate ⟨100, 0, 0, 0, some 0⟩) 200) 50).normalized
      ≠ some (-3 / 10) := by
  decide!

/-- Claim C7, amended: the concrete trace in binary32. The ratio is
`10066329/67108864`, within `10^-8` of 0.15. Init on sample 100 gives 100 in all four
fields; the update on sample 200 gives `smoothed = 115`, `min = 100`, `max = 115`,
`normalized = 1`; the update on sample 50 gives `smoothed = 105.25`, `min = 100`,
`max = 115` and `normalized = -5033165/16777216`, the binary32 result of
`(105.25-100)/(115-100)*2-1`, within `2 * 10^-8` of `-0.3`. This holds whatever the
record held before. -/
theorem scenario_trace (s mn mx : ℚ) (nz : Option ℚ) :
    LERP_RATIO = 10066329 / 67108864 ∧
    |(10066329 / 67108864 : ℚ) - 15 / 100| < 1 / 10 ^ 8 ∧
    initCoordinate ⟨100, s, mn, mx, nz⟩ = ⟨100, 100, 100, 100, some 100⟩ ∧
    sampleStep (initCoordinate ⟨100, s, mn, mx, nz⟩) 200 = ⟨200, 115, 100, 115, some 1⟩ ∧
    sampleStep (sampleStep (initCoordinate ⟨100, s, mn, mx, nz⟩) 200) 50
      = ⟨50, 10525 / 100, 100, 115, some (-5033165 / 16777216)⟩ ∧
    |(-5033165 / 16777216 : ℚ) - ((10525 / 100 - 100) / (115 - 100) * 2 - 1)|
      < 2 / 10 ^ 8 ∧
    ((10525 / 100 - 100) / (115 - 100) * 2 - 1 : ℚ) = -3 / 10 := by
  have h0 : initCoordinate ⟨100, s, mn, mx, nz⟩ = ⟨100, 100, 100, 100, some 100⟩ := by
    simp [initCoordinate]
  rw [h0]
  refine ⟨lerpRatio_value, by decide!, rfl, by decide!, by decide!, by decide!, by decide!⟩

/-- Claim C10, as stated, fails: with ratio 2 the result overshoots the target, and with
ratio 1 the result misses the target when `b - a` is not a binary32 value. -/
theorem lerp_ratio_ge_one_misses :
    (1 : ℚ) ≤ 2 ∧ lerp 0 1 2 ≠ 1 ∧
    (1 : ℚ) ≤ 1 ∧ lerp (13112145 / 512) (-27908) 1 ≠ -27908 := by
  decide!

/-- Claim C10, amended: `lerp a b t` is the bare formula `a + (b - a) * t`, each operation
rounded to binary32, with nothing special-casing `t`; at ratio 1 it equals `b` whenever
`b` and the difference `b - a` are binary32 values (the subtraction is exact), and at
any ratio it equals `b` when `a = b`. -/
theorem lerp_ratio_one (a b t : ℚ) (hb : IsF32 b) (hd : IsF32 (b - a)) :
    lerp a b t = round32 (a + round32 (round32 (b - a) * t)) ∧
    lerp a b 1 = b ∧
    lerp b b t = b := by
  refine ⟨rfl, ?_, ?_⟩
  · unfold lerp
    rw [hd.1, mul_one, hd.1]
    have : a + (b - a) = b := by ring
    rw [this, hb.1]
  · unfold lerp
    rw [sub_self, round32_zero, zero_mul, round32_zero, add_zero, hb.1]

/-- Witness for the amended C10: from 100 to 200, both and their difference exact. -/
theorem lerp_ratio_one_witness :
    IsF32 (200 : ℚ) ∧ IsF32 ((200 : ℚ) - 100) ∧
    lerp 100 200 (3 / 2) = round32 (100 + round32 (round32 (200 - 100) * (3 / 2))) ∧
    lerp 100 200 1 = 200 ∧
    lerp 200 200 (3 / 2) = 200 :=
  ⟨by decide!, by decide!,
   (lerp_ratio_one 100 200 (3 / 2) (by decide!) (by decide!)).1,
   (lerp_ratio_one 100 200 (3 / 2) (by decide!) (by decide!)).2.1,
   (lerp_ratio_one 100 200 (3 / 2) (by decide!) (by decide!)).2.2⟩

/-! ## Helper lemmas on the sampling loop -/

theorem exec_append (sensor : Nat → Acquisition) (m : Main) (xs ys : List Event) :
    exec sensor m (xs ++ ys) = exec sensor (exec sensor m xs) ys := by
  simp [exec, List.foldl_append]

theorem exec_iteration (sensor : Nat → Acquisition) (m : Main)
    (hpc : m.pc = Pc.test) (hrun : m.running = 1) :
    (exec sensor m iteration).pc = Pc.test ∧
    (exec sensor m iteration).running = 1 ∧
    (exec sensor m iteration).screen.length = m.screen.length + 1 ∧
    (exec sensor m iteration).busOpen = m.busOpen ∧
    (exec sensor m iteration).exitCode = m.exitCode := by
  simp [exec, iteration, step, progStep, hpc, hrun]

theorem exec_iterations (sensor : Nat → Acquisition) (k : Nat) (m : Main)
    (hpc : m.pc = Pc.test) (hrun : m.running = 1) :
    (exec sensor m (iterations k)).pc = Pc.test ∧
    (exec sensor m (iterations k)).running = 1 ∧
    (exec sensor m (iterations k)).screen.length = m.screen.length + k ∧
    (exec sensor m (iterations k)).busOpen = m.busOpen ∧
    (exec sensor m (iterations k)).exitCode = m.exitCode := by
  induction k generalizing m with
  | zero => simp [iterations, exec, hpc, hrun]
  | succ j ih =>
    obtain ⟨h1, h2, h3, h4, h5⟩ := exec_iteration sensor m hpc hrun
    obtain ⟨g1, g2, g3, g4, g5⟩ := ih (exec sensor m iteration) h1 h2
    simp only [iterations, exec_append]
    refine ⟨g1, g2, ?_, ?_, ?_⟩
    · rw [g3, h3]; ring
    · rw [g4, h4]
    · rw [g5, h5]

theorem stopping_progStep (sensor : Nat → Acquisition) (S : List Channels) (r : Nat)
    (m : Main) (h : Stopping S r m) : Stopping S (r + 1) (progStep sensor m) := by
  obtain ⟨hrun, hscr, hcase⟩ := h
  rcases hcase with ⟨hr, hpc⟩ | ⟨hr, hpc⟩ | ⟨hr, hpc⟩ | ⟨hr, hpc, hex, hbus⟩
  · subst hr
    refine ⟨by simp [progStep, hpc, hrun], by simp [progStep, hpc, hscr], ?_⟩
    right; left; simp [progStep, hpc]
  · subst hr
    refine ⟨by simp [progStep, hpc, hrun], by simp [progStep, hpc, hrun, hscr], ?_⟩
    right; right; left; simp [progStep, hpc, hrun]
  · subst hr
    refine ⟨by simp [progStep, hpc, hrun], by simp [progStep, hpc, hscr], ?_⟩
    right; right; right; simp [progStep, hpc]
  · refine ⟨by simp [progStep, hpc, hrun], by simp [progStep, hpc, hscr], ?_⟩
    right; right; right
    exact ⟨by omega, by simp [progStep, hpc], by simp [progStep, hpc, hex],
      by simp [progStep, hpc, hbus]⟩

theorem stopping_ctrlCHandler (S : List Channels) (r : Nat) (m : Main)
    (h : Stopping S r m) : Stopping S r (ctrlCHandler m) := by
  obtain ⟨_, hscr, hcase⟩ := h
  exact ⟨rfl, hscr, hcase⟩

theorem stopping_exec (sensor : Nat → Acquisition) (S : List Channels) (evs : List Event) :
    ∀ (r : Nat) (m : Main), Stopping S r m →
      Stopping S (r + progCount evs) (exec sensor m evs) := by
  induction evs with
  | nil => intro r m h; simpa [exec, progCount] using h
  | cons e es ih =>
    intro r m h
    cases e with
    | prog =>
      have h1 := ih (r + 1) (progStep sensor m) (stopping_progStep sensor S r m h)
      have hc : r + progCount (Event.prog :: es) = r + 1 + progCount es := by
        simp [progCount]; ring
      rw [hc]
      simpa [exec, step] using h1
    | sig =>
      have h1 := ih r (ctrlCHandler m) (stopping_ctrlCHandler S r m h)
      have hc : r + progCount (Event.sig :: es) = r + progCount es := by
        simp [progCount]
      rw [hc]
      simpa [exec, step] using h1

/-- Claim C8, evaluated on the code. On a bus where every driver read fails (returns -1,
stores nothing), before the loop and inside it, the program still enters the loop and
after any number `k` of iterations it has rendered `k` snapshots from the failed reads,
`running` is still 1, the handles are open and nothing was returned; the same holds for
every sensor, whatever its reads return. Only a signal ends the loop, and `main` then
returns 0. -/
theorem main_masks_failed_reads (k : Nat) :
    (∀ j : Nat, (deadBus j).a.ret ≠ 0 ∧ (deadBus j).c.ret ≠ 0 ∧ (deadBus j).g.ret ≠ 0 ∧
      (deadBus j).t.ret ≠ 0) ∧
    (∀ sensor : Nat → Acquisition,
      (exec sensor (mainEntry sensor) (Event.prog :: iterations k)).pc = Pc.test ∧
      (exec sensor (mainEntry sensor) (Event.prog :: iterations k)).running = 1 ∧
      (exec sensor (mainEntry sensor) (Event.prog :: iterations k)).screen.length = k ∧
      (exec sensor (mainEntry sensor) (Event.prog :: iterations k)).busOpen = true ∧
      (exec sensor (mainEntry sensor) (Event.prog :: iterations k)).exitCode = none) ∧
    (exec deadBus (mainEntry deadBus) (Event.prog :: iterations 2)).screen.length = 2 ∧
    (exec deadBus (mainEntry deadBus)
      (Event.prog :: iterations 2 ++ [Event.sig, Event.prog, Event.prog])).pc = Pc.done ∧
    (exec deadBus (mainEntry deadBus)
      (Event.prog :: iterations 2 ++ [Event.sig, Event.prog, Event.prog])).exitCode
        = some 0 := by
  refine ⟨fun j => by simp [deadBus], ?_, by decide, by decide, by decide⟩
  intro sensor
  have h := exec_iterations sensor k (progStep sensor (mainEntry sensor))
    (by simp [progStep, mainEntry]) (by simp [progStep, mainEntry])
  have he : exec sensor (mainEntry sensor) (Event.prog :: iterations k)
      = exec sensor (progStep sensor (mainEntry sensor)) (iterations k) := by
    simp [exec, step]
  rw [he]
  obtain ⟨h1, h2, h3, h4, h5⟩ := h
  refine ⟨h1, h2, ?_, ?_, ?_⟩
  · rw [h3]; simp [progStep, mainEntry]
  · rw [h4]; simp [progStep, mainEntry]
  · rw [h5]; simp [progStep, mainEntry]

/-- Claim C9, as stated, fails: the program is in its delay step after the first render;
the handler clears the flag there; the program then runs to its end and the number of
renders is still one, not two. -/
theorem delay_signal_renders_nothing_more :
    (exec quietBus (mainEntry quietBus)
      [Event.prog, Event.prog, Event.prog, Event.prog, Event.prog]).pc = Pc.delay ∧
    (exec quietBus (mainEntry quietBus)
      [Event.prog, Event.prog, Event.prog, Event.prog, Event.prog]).screen.length = 1 ∧
    (exec quietBus (mainEntry quietBus)
      [Event.prog, Event.prog, Event.prog, Event.prog, Event.prog,
       Event.sig, Event.prog, Event.prog, Event.prog]).pc = Pc.done ∧
    (exec quietBus (mainEntry quietBus)
      [Event.prog, Event.prog, Event.prog, Event.prog, Event.prog,
       Event.sig, Event.prog, Event.prog, Event.prog]).screen.length ≠ 1 + 1 := by
  decide

/-- Claim C9, amended: if the handler clears the flag while the loop is in its delay
step, no further render happens, whatever is scheduled afterwards; the test that follows
the delay ends the loop, and three program steps later `main` has closed the handles and
returned 0. -/
theorem shutdown_during_delay (sensor : Nat → Acquisition) (m : Main) (evs : List Event)
    (h : m.pc = Pc.delay) :
    (exec sensor (ctrlCHandler m) evs).screen = m.screen ∧
    (3 ≤ progCount evs →
      (exec sensor (ctrlCHandler m) evs).pc = Pc.done ∧
      (exec sensor (ctrlCHandler m) evs).busOpen = false ∧
      (exec sensor (ctrlCHandler m) evs).exitCode = some 0) := by
  have h0 : Stopping m.screen 0 (ctrlCHandler m) :=
    ⟨rfl, rfl, Or.inl ⟨rfl, by simpa [ctrlCHandler] using h⟩⟩
  obtain ⟨_, hscr, hcase⟩ := stopping_exec sensor m.screen evs 0 (ctrlCHandler m) h0
  refine ⟨hscr, fun h3 => ?_⟩
  rcases hcase with ⟨hr, _⟩ | ⟨hr, _⟩ | ⟨hr, _⟩ | ⟨_, hpc, hex, hbus⟩
  · omega
  · omega
  · omega
  · exact ⟨hpc, hbus, hex⟩

/-- Witness for the amended C9: the quiet sensor, the state in the delay after the first
render, then the signal and three program steps. -/
theorem shutdown_during_delay_witness :
    (exec quietBus (mainEntry quietBus)
      [Event.prog, Event.prog, Event.prog, Event.prog, Event.prog]).pc = Pc.delay ∧
    3 ≤ progCount [Event.prog, Event.prog, Event.prog] ∧
    (exec quietBus (ctrlCHandler (exec quietBus (mainEntry quietBus)
        [Event.prog, Event.prog, Event.prog, Event.prog, Event.prog]))
      [Event.prog, Event.prog, Event.prog]).screen
      = (exec quietBus (mainEntry quietBus)
        [Event.prog, Event.prog, Event.prog, Event.prog, Event.prog]).screen ∧
    (exec quietBus (ctrlCHandler (exec quietBus (mainEntry quietBus)
        [Event.prog, Event.prog, Event.prog, Event.prog, Event.prog]))
      [Event.prog, Event.prog, Event.prog]).pc = Pc.done ∧
    (exec quietBus (ctrlCHandler (exec quietBus (mainEntry quietBus)
        [Event.prog, Event.prog, Event.prog, Event.prog, Event.prog]))
      [Event.prog, Event.prog, Event.prog]).busOpen = false ∧
    (exec quietBus (ctrlCHandler (exec quietBus (mainEntry quietBus)
        [Event.prog, Event.prog, Event.prog, Event.prog, Event.prog]))
      [Event.prog, Event.prog, Event.prog]).exitCode = some 0 :=
  ⟨by decide, by decide,
   (shutdown_during_delay quietBus
      (exec quietBus (mainEntry quietBus)
        [Event.prog, Event.prog, Event.prog, Event.prog, Event.prog])
      [Event.prog, Event.prog, Event.prog] (by decide)).1,
   (shutdown_during_delay quietBus
      (exec quietBus (mainEntry quietBus)
        [Event.prog, Event.prog, Event.prog, Event.prog, Event.prog])
      [Event.prog, Event.prog, Event.prog] (by decide)).2 (by decide)⟩


end Gy85
